import Mathlib

/-!
Shallow embedding of `generate_gt_from_folder.py` (tesstrain): an image
discoverer (`get_image_files`, built on `os.walk`) feeding a pairing engine
(`generate_gt_from_folders`) that flattens per-label image folders into a
ground-truth directory, resolving filename collisions with a `_N` probe loop.

Filesystem state is modelled as an association list of (filename, data)
entries relative to the output directory; I/O failures of the two write
operations are modelled by an oracle supplying, per candidate, an optional
exception message for the text write and for the image copy.
-/

namespace Tesstrain

/-- Last index of character `c` in a list, mirroring `str.rfind`. -/
def lastIndexOf (c : Char) : List Char → Option Nat
  | [] => none
  | x :: xs =>
    match lastIndexOf c xs with
    | some i => some (i + 1)
    | none => if x = c then some 0 else none

/-- Embedding of CPython `os.path.splitext` restricted to a bare filename
(no directory separators): split at the last dot unless every character
before it is itself a dot (so `".png"` has no extension). -/
def splitext (p : String) : String × String :=
  match lastIndexOf '.' p.data with
  | none => (p, "")
  | some i =>
    if (p.data.take i).any (fun ch => ch ≠ '.') then
      (⟨p.data.take i⟩, ⟨p.data.drop i⟩)
    else (p, "")

/-- Embedding of `str.lower` (adequate for the ASCII extensions involved). -/
def strLower (s : String) : String := ⟨s.data.map Char.toLower⟩

/-- The fixed allow-list of image extensions from the source. -/
def image_extensions : List String :=
  [".png", ".jpg", ".jpeg", ".tif", ".tiff", ".bmp", ".gif"]

/-- A source file: a name and its byte content. -/
structure SrcFile where
  name : String
  content : List Nat
deriving DecidableEq, Repr

/-- The input directory tree handed to `os.walk`. -/
inductive DirTree where
  | node (name : String) (files : List SrcFile) (subs : List DirTree)

def DirTree.name : DirTree → String
  | .node n _ _ => n

def DirTree.files : DirTree → List SrcFile
  | .node _ fl _ => fl

def DirTree.subs : DirTree → List DirTree
  | .node _ _ s => s

/-- One `os.walk` entry: the directory's path, its own name, its files. -/
abbrev WalkEntry := String × String × List SrcFile

mutual

/-- Embedding of top-down `os.walk`: the directory itself first, then each
subdirectory recursively, in listed order. `p` is this directory's path. -/
def osWalk (p : String) : DirTree → List WalkEntry
  | .node n fl subs => (p, n, fl) :: osWalkList p subs

/-- Walk a list of sibling subdirectories of the directory at path `p`. -/
def osWalkList (p : String) : List DirTree → List WalkEntry
  | [] => []
  | t :: ts => osWalk (p ++ "/" ++ t.name) t ++ osWalkList p ts

end

/-- A discovered candidate, as the tuple `(file_path, base, ext)` returned by
`get_image_files` together with the data the pairing loop later derives from
it: the source file name (`os.path.basename file_path`), the parent folder
name (`os.path.basename (os.path.dirname file_path)`) and the file bytes. -/
structure Candidate where
  path : String
  srcName : String
  folder : String
  base : String
  ext : String
  content : List Nat
deriving DecidableEq, Repr

/-- Embedding of `get_image_files`: walk the tree, skip the entry whose path
is the input root itself, and keep each file whose lower-cased extension is
in `exts`, recording its stem and lower-cased extension. -/
def get_image_files (rootPath : String) (t : DirTree) (exts : List String) :
    List Candidate :=
  ((osWalk rootPath t).filter (fun e => e.1 ≠ rootPath)).flatMap
    (fun e =>
      e.2.2.filterMap (fun f =>
        let be := splitext f.name
        if strLower be.2 ∈ exts then
          some ⟨e.1 ++ "/" ++ f.name, f.name, e.2.1, be.1, strLower be.2,
            f.content⟩
        else none))

/-- Data stored in one output file: label text or image bytes. -/
inductive FData where
  | text (s : String)
  | image (bs : List Nat)
deriving DecidableEq, Repr

/-- The output directory's contents: an association list of filenames
(relative to the output directory) and their data. -/
abbrev FS := List (String × FData)

def fsNames (fs : FS) : List String := fs.map Prod.fst

/-- Embedding of `os.path.exists` inside the output directory. -/
def pathExists (fs : FS) (n : String) : Bool := decide (n ∈ fsNames fs)

/-- `f"{dest_base}.gt.txt"` -/
def txtName (b : String) : String := b ++ ".gt.txt"

/-- `f"{dest_base}{ext}"` -/
def imgName (b ext : String) : String := b ++ ext

/-- The condition of the duplicate-handling `while` loop. -/
def collides (fs : FS) (b ext : String) : Bool :=
  pathExists fs (imgName b ext) || pathExists fs (txtName b)

/-- `f"{base_name}_{counter}"` -/
def mkNumbered (base : String) (n : Nat) : String :=
  base ++ "_" ++ toString n

/-- Fuelled embedding of the collision `while` loop body: try
`{base}_{counter}`, `{base}_{counter+1}`, ... until one is free. -/
def resolveFrom (fs : FS) (base ext : String) : Nat → Nat → Option String
  | 0, _ => none
  | fuel + 1, counter =>
    let b := mkNumbered base counter
    if collides fs b ext then resolveFrom fs base ext fuel (counter + 1)
    else some b

/-- The collision-resolution step of the pairing loop: keep the stem if its
two destination names are free, else probe `_1`, `_2`, ... (the fuel
`2 * fs.length + 1` is provably sufficient, see `resolveBase_isSome`). -/
def resolveBase (fs : FS) (base ext : String) : Option String :=
  if collides fs base ext then
    resolveFrom fs base ext (2 * fs.length + 1) 1
  else some base

/-- The I/O oracle for one candidate: `none` means the operation succeeds,
`some e` means it raises `IOError`/`OSError` with message `e`. -/
structure IOSpec where
  txtErr : Option String
  copyErr : Option String
deriving DecidableEq, Repr

/-- Per-candidate result of one pairing-loop iteration. -/
inductive Outcome where
  | ok (c : Candidate) (b : String)
  | errTxt (c : Candidate) (b : String) (msg : String)
  | errCopy (c : Candidate) (b : String) (msg : String)
  | errResolve (c : Candidate)
deriving DecidableEq, Repr

def errLine (path e : String) : String :=
  "Error processing " ++ path ++ ": " ++ e

/-- One iteration of the pairing loop on candidate `c`: resolve the base,
write `{b}.gt.txt` with the parent folder name, then copy the image bytes to
`{b}{ext}`; an exception from either write is caught, reported, and leaves
the remaining writes undone. -/
def processOne (fs : FS) (c : Candidate) (io : IOSpec) : FS × Outcome :=
  match resolveBase fs c.base c.ext with
  | none => (fs, .errResolve c)
  | some b =>
    match io.txtErr with
    | some e => (fs, .errTxt c b (errLine c.path e))
    | none =>
      let fs1 := fs ++ [(txtName b, FData.text c.folder)]
      match io.copyErr with
      | some e => (fs1, .errCopy c b (errLine c.path e))
      | none => (fs1 ++ [(imgName b c.ext, FData.image c.content)], .ok c b)

/-- The pairing loop over the candidate list, threading the output
directory state and collecting one `Outcome` per candidate. -/
def runEngine (fs : FS) : List (Candidate × IOSpec) → FS × List Outcome
  | [] => (fs, [])
  | ci :: rest =>
    let s := processOne fs ci.1 ci.2
    let r := runEngine s.1 rest
    (r.1, s.2 :: r.2)

def isOk : Outcome → Bool
  | .ok _ _ => true
  | _ => false

def outcomeErrMsg : Outcome → Option String
  | .errTxt _ _ m => some m
  | .errCopy _ _ m => some m
  | _ => none

/-- Result of `generate_gt_from_folders`: final output directory state, the
per-candidate outcomes, the returned count, and the stderr lines. -/
structure GenResult where
  fs : FS
  outcomes : List Outcome
  total : Nat
  stderrLines : List String
deriving Repr

/-- Embedding of `generate_gt_from_folders`: discover candidates, bail out
with count 0 when none, otherwise run the pairing loop, counting the
successful candidates and collecting the per-file error lines. -/
def generate_gt_from_folders (rootPath : String) (t : DirTree) (fs0 : FS)
    (ios : Nat → IOSpec) : GenResult :=
  let cands := get_image_files rootPath t image_extensions
  if cands.isEmpty then
    ⟨fs0, [], 0, ["Error: No image files found in subdirectories!"]⟩
  else
    let r := runEngine fs0 (cands.zip ((List.range cands.length).map ios))
    ⟨r.1, r.2, (r.2.filter isOk).length, r.2.filterMap outcomeErrMsg⟩

/-- Observable result of `main`: the exit status, whether the output
directory was (possibly) created, and the final output directory state. -/
structure MainResult where
  exitCode : Nat
  outDirCreated : Bool
  fs : FS
deriving Repr

/-- Embedding of `main`: validate the input directory before any output-side
effect, then run the generator; exit 1 when it processed zero files. -/
def main (inputIsDir : Bool) (rootPath : String) (t : DirTree) (fs0 : FS)
    (ios : Nat → IOSpec) : MainResult :=
  if inputIsDir then
    let r := generate_gt_from_folders rootPath t fs0 ios
    ⟨if r.total = 0 then 1 else 0, true, r.fs⟩
  else ⟨1, false, fs0⟩

/-! ### Decimal rendering is injective -/

/-- One step of decimal decoding: shift the accumulator and add the digit. -/
def digStep (a : Nat) (c : Char) : Nat := 10 * a + (c.toNat - 48)

theorem digStep_digitChar (a : Nat) (d : Fin 10) :
    digStep a (Nat.digitChar d) = 10 * a + d := by
  have h : ∀ e : Fin 10, (Nat.digitChar e).toNat - 48 = e := by decide
  simp [digStep, h d]

theorem foldl_digStep_toDigitsCore :
    ∀ (fuel n : Nat) (ds : List Char), n < 10 ^ fuel →
      (Nat.toDigitsCore 10 fuel n ds).foldl digStep 0 = ds.foldl digStep n := by
  intro fuel
  induction fuel with
  | zero =>
    intro n ds h
    interval_cases n
    simp [Nat.toDigitsCore]
  | succ fuel ih =>
    intro n ds h
    have hmod : n % 10 < 10 := Nat.mod_lt _ (by norm_num)
    by_cases hz : n / 10 = 0
    · have hn : n < 10 := by omega
      have hstep : digStep 0 (Nat.digitChar (n % 10)) = n := by
        have h10 := digStep_digitChar 0 ⟨n % 10, hmod⟩
        simp at h10
        omega
      simp [Nat.toDigitsCore, hz, List.foldl, hstep]
    · have hlt : n / 10 < 10 ^ fuel := by
        have hp : (10 : Nat) ^ (fuel + 1) = 10 * 10 ^ fuel := by ring
        omega
      have := ih (n / 10) (Nat.digitChar (n % 10) :: ds) hlt
      simp only [Nat.toDigitsCore, hz, if_false]
      rw [this]
      simp [List.foldl, digStep_digitChar (n / 10) ⟨n % 10, hmod⟩]
      congr 1
      omega

theorem foldl_digStep_toDigits (n : Nat) :
    (Nat.toDigits 10 n).foldl digStep 0 = n := by
  have h1 : n < 10 ^ (n + 1) := by
    calc n < 10 ^ n := Nat.lt_pow_self (by norm_num) n
    _ ≤ 10 ^ (n + 1) := Nat.pow_le_pow_right (by norm_num) (Nat.le_succ n)
  simpa using foldl_digStep_toDigitsCore (n + 1) n [] h1

theorem natToString_injective {m n : Nat} (h : toString m = toString n) :
    m = n := by
  have hd : Nat.toDigits 10 m = Nat.toDigits 10 n := by
    have : (Nat.toDigits 10 m).asString = (Nat.toDigits 10 n).asString := h
    have := congrArg String.data this
    simpa [List.asString] using this
  calc m = (Nat.toDigits 10 m).foldl digStep 0 := (foldl_digStep_toDigits m).symm
  _ = (Nat.toDigits 10 n).foldl digStep 0 := by rw [hd]
  _ = n := foldl_digStep_toDigits n

/-! ### String append cancellation and name injectivity -/

theorem str_append_left_cancel {a b c : String} (h : a ++ b = a ++ c) :
    b = c := by
  have hd := congrArg String.data h
  simp only [String.data_append] at hd
  apply String.ext
  exact List.append_cancel_left hd

theorem str_append_right_cancel {a b c : String} (h : a ++ c = b ++ c) :
    a = b := by
  have hd := congrArg String.data h
  simp only [String.data_append] at hd
  apply String.ext
  exact List.append_cancel_right hd

theorem mkNumbered_inj {base : String} {m n : Nat}
    (h : mkNumbered base m = mkNumbered base n) : m = n := by
  unfold mkNumbered at h
  exact natToString_injective (str_append_left_cancel (str_append_left_cancel
    (by simpa [String.append_assoc] using h)))

theorem txtName_inj {a b : String} (h : txtName a = txtName b) : a = b :=
  str_append_right_cancel h

theorem imgName_inj {a b ext : String} (h : imgName a ext = imgName b ext) :
    a = b :=
  str_append_right_cancel h

/-! ### Collision resolution: termination, minimality, freshness -/

theorem bool_eq_false {b : Bool} (h : ¬b = true) : b = false := by
  cases b
  · rfl
  · exact absurd rfl h

theorem collides_iff {fs : FS} {b ext : String} :
    collides fs b ext = true ↔
      imgName b ext ∈ fsNames fs ∨ txtName b ∈ fsNames fs := by
  simp [collides, pathExists]

/-- Pigeonhole: among any `2 * fs.length + 1` consecutive probe counters,
some numbered name is free, because distinct counters give distinct image
names and distinct text names, each a member of `fs` when colliding. -/
theorem exists_noncolliding (fs : FS) (base ext : String) (start : Nat) :
    ∃ i < 2 * fs.length + 1,
      collides fs (mkNumbered base (start + i)) ext = false := by
  by_contra hc
  push_neg at hc
  have hall : ∀ i ∈ Finset.range (2 * fs.length + 1),
      collides fs (mkNumbered base (start + i)) ext = true := by
    intro i hi
    have hne := hc i (Finset.mem_range.mp hi)
    cases h : collides fs (mkNumbered base (start + i)) ext
    · exact absurd h hne
    · rfl
  set T : Finset String := (fsNames fs).toFinset with hT
  set A : Finset Nat := (Finset.range (2 * fs.length + 1)).filter
    (fun i => imgName (mkNumbered base (start + i)) ext ∈ fsNames fs) with hA
  set B : Finset Nat := (Finset.range (2 * fs.length + 1)).filter
    (fun i => txtName (mkNumbered base (start + i)) ∈ fsNames fs) with hB
  have hsub : Finset.range (2 * fs.length + 1) ⊆ A ∪ B := by
    intro i hi
    have := collides_iff.mp (hall i hi)
    rcases this with h | h
    · exact Finset.mem_union_left _ (Finset.mem_filter.mpr ⟨hi, h⟩)
    · exact Finset.mem_union_right _ (Finset.mem_filter.mpr ⟨hi, h⟩)
  have hAcard : A.card ≤ fs.length := by
    have h1 : A.card ≤ T.card := by
      apply Finset.card_le_card_of_injOn
        (fun i => imgName (mkNumbered base (start + i)) ext)
      · intro i hi
        rw [hA] at hi
        exact List.mem_toFinset.mpr (Finset.mem_filter.mp hi).2
      · intro i _ j _ hij
        have := mkNumbered_inj (imgName_inj hij)
        omega
    have h2 : T.card ≤ (fsNames fs).length := (fsNames fs).toFinset_card_le
    have h3 : (fsNames fs).length = fs.length := List.length_map _ _
    omega
  have hBcard : B.card ≤ fs.length := by
    have h1 : B.card ≤ T.card := by
      apply Finset.card_le_card_of_injOn
        (fun i => txtName (mkNumbered base (start + i)))
      · intro i hi
        rw [hB] at hi
        exact List.mem_toFinset.mpr (Finset.mem_filter.mp hi).2
      · intro i _ j _ hij
        have := mkNumbered_inj (txtName_inj hij)
        omega
    have h2 : T.card ≤ (fsNames fs).length := (fsNames fs).toFinset_card_le
    have h3 : (fsNames fs).length = fs.length := List.length_map _ _
    omega
  have := Finset.card_le_card hsub
  have hunion := Finset.card_union_le A B
  simp [Finset.card_range] at this
  omega

theorem resolveFrom_isSome {fs : FS} {base ext : String} :
    ∀ (fuel start : Nat),
      (∃ i < fuel, collides fs (mkNumbered base (start + i)) ext = false) →
      (resolveFrom fs base ext fuel start).isSome := by
  intro fuel
  induction fuel with
  | zero =>
    intro start h
    obtain ⟨i, hi, _⟩ := h
    omega
  | succ fuel ih =>
    intro start h
    simp only [resolveFrom]
    by_cases hc : collides fs (mkNumbered base start) ext = true
    · simp only [hc, if_true]
      apply ih
      obtain ⟨i, hi, hfree⟩ := h
      match i, hi with
      | 0, _ =>
        rw [Nat.add_zero] at hfree
        rw [hc] at hfree
        exact absurd hfree (by simp)
      | j + 1, hj =>
        refine ⟨j, by omega, ?_⟩
        have harr : start + 1 + j = start + (j + 1) := by omega
        rw [harr]
        exact hfree
    · rw [if_neg hc]
      simp

theorem resolveBase_isSome (fs : FS) (base ext : String) :
    ∃ b, resolveBase fs base ext = some b := by
  unfold resolveBase
  by_cases hc : collides fs base ext = true
  · simp only [hc, if_true]
    have h := exists_noncolliding fs base ext 1
    have := resolveFrom_isSome (2 * fs.length + 1) 1 (by
      obtain ⟨i, hi, hf⟩ := h
      exact ⟨i, hi, hf⟩)
    exact Option.isSome_iff_exists.mp this
  · rw [if_neg hc]
    exact ⟨base, rfl⟩

theorem resolveFrom_spec {fs : FS} {base ext b : String} :
    ∀ (fuel start : Nat), resolveFrom fs base ext fuel start = some b →
      ∃ n, start ≤ n ∧ b = mkNumbered base n ∧
        collides fs (mkNumbered base n) ext = false ∧
        ∀ m, start ≤ m → m < n → collides fs (mkNumbered base m) ext = true := by
  intro fuel
  induction fuel with
  | zero => intro start h; simp [resolveFrom] at h
  | succ fuel ih =>
    intro start h
    simp only [resolveFrom] at h
    by_cases hc : collides fs (mkNumbered base start) ext = true
    · rw [if_pos hc] at h
      obtain ⟨n, hn1, hn2, hn3, hn4⟩ := ih (start + 1) h
      refine ⟨n, by omega, hn2, hn3, ?_⟩
      intro m hm1 hm2
      rcases Nat.eq_or_lt_of_le hm1 with hm | hm
      · rw [← hm]; exact hc
      · exact hn4 m hm hm2
    · rw [if_neg hc] at h
      have hb := Option.some.inj h
      exact ⟨start, le_refl _, hb.symm, bool_eq_false hc, by omega⟩

theorem resolveBase_spec {fs : FS} {base ext b : String}
    (h : resolveBase fs base ext = some b) :
    (collides fs base ext = false ∧ b = base) ∨
    (collides fs base ext = true ∧ ∃ n, 1 ≤ n ∧ b = mkNumbered base n ∧
      collides fs (mkNumbered base n) ext = false ∧
      ∀ m, 1 ≤ m → m < n → collides fs (mkNumbered base m) ext = true) := by
  unfold resolveBase at h
  by_cases hc : collides fs base ext = true
  · simp only [hc, if_true] at h
    obtain ⟨n, hn1, hn2, hn3, hn4⟩ := resolveFrom_spec _ 1 h
    exact Or.inr ⟨hc, n, hn1, hn2, hn3, hn4⟩
  · simp only [hc, if_false] at h
    simp at h hc
    exact Or.inl ⟨hc, h.symm⟩

/-- The resolved base's two destination names are absent from the current
output directory. -/
theorem resolveBase_fresh {fs : FS} {base ext b : String}
    (h : resolveBase fs base ext = some b) :
    imgName b ext ∉ fsNames fs ∧ txtName b ∉ fsNames fs := by
  rcases resolveBase_spec h with ⟨hfree, rfl⟩ | ⟨_, n, _, rfl, hfree, _⟩ <;>
    · constructor <;> intro hmem <;>
        simp [collides, pathExists, hmem] at hfree

/-! ### Pairing-engine structure lemmas -/

/-- The files one outcome contributed to the output directory. -/
def outcomeFiles : Outcome → FS
  | .ok c b => [(txtName b, FData.text c.folder),
                (imgName b c.ext, FData.image c.content)]
  | .errCopy c b _ => [(txtName b, FData.text c.folder)]
  | _ => []

/-- The resolved base recorded in an outcome, when resolution finished. -/
def outcomeBase : Outcome → Option String
  | .ok _ b => some b
  | .errTxt _ b _ => some b
  | .errCopy _ b _ => some b
  | .errResolve _ => none

/-- The base an outcome claims on disk: resolution finished and at least
the text write succeeded. -/
def txtClaimed : Outcome → Option String
  | .ok _ b => some b
  | .errCopy _ b _ => some b
  | _ => none

def outcomeCand : Outcome → Candidate
  | .ok c _ => c
  | .errTxt c _ _ => c
  | .errCopy c _ _ => c
  | .errResolve c => c

/-- Resolved bases of the successfully processed candidates, in order. -/
def okBases (os : List Outcome) : List String :=
  os.filterMap (fun o =>
    match o with
    | .ok _ b => some b
    | _ => none)

theorem fsNames_append (a b : FS) :
    fsNames (a ++ b) = fsNames a ++ fsNames b := List.map_append _ _ _

theorem processOne_fst (fs : FS) (c : Candidate) (io : IOSpec) :
    (processOne fs c io).1 = fs ++ outcomeFiles (processOne fs c io).2 := by
  unfold processOne
  rcases hres : resolveBase fs c.base c.ext with _ | b
  · simp [outcomeFiles]
  · rcases htxt : io.txtErr with _ | e
    · rcases hcopy : io.copyErr with _ | e2
      · simp [outcomeFiles]
      · simp [outcomeFiles]
    · simp [outcomeFiles]

theorem processOne_base (fs : FS) (c : Candidate) (io : IOSpec) :
    outcomeBase (processOne fs c io).2 = resolveBase fs c.base c.ext := by
  unfold processOne
  rcases hres : resolveBase fs c.base c.ext with _ | b
  · simp [outcomeBase]
  · rcases htxt : io.txtErr with _ | e
    · rcases hcopy : io.copyErr with _ | e2
      · simp [outcomeBase]
      · simp [outcomeBase]
    · simp [outcomeBase]

theorem processOne_cand (fs : FS) (c : Candidate) (io : IOSpec) :
    outcomeCand (processOne fs c io).2 = c := by
  unfold processOne
  rcases hres : resolveBase fs c.base c.ext with _ | b
  · simp [outcomeCand]
  · rcases htxt : io.txtErr with _ | e
    · rcases hcopy : io.copyErr with _ | e2
      · simp [outcomeCand]
      · simp [outcomeCand]
    · simp [outcomeCand]

theorem txtClaimed_base {o : Outcome} {b : String}
    (h : txtClaimed o = some b) : outcomeBase o = some b := by
  cases o <;> simp [txtClaimed, outcomeBase] at h ⊢ <;> exact h

theorem txtClaimed_mem_files {o : Outcome} {b : String}
    (h : txtClaimed o = some b) :
    (txtName b, FData.text (outcomeCand o).folder) ∈ outcomeFiles o := by
  cases o <;> simp [txtClaimed] at h <;>
    simp [outcomeFiles, outcomeCand, h]

theorem outcomeFiles_names {o : Outcome} {n : String}
    (h : n ∈ fsNames (outcomeFiles o)) :
    ∃ b, outcomeBase o = some b ∧
      (n = txtName b ∨ n = imgName b (outcomeCand o).ext) := by
  cases o with
  | ok c b =>
    simp [outcomeFiles, fsNames] at h
    exact ⟨b, rfl, h⟩
  | errTxt c b m => simp [outcomeFiles, fsNames] at h
  | errCopy c b m =>
    simp [outcomeFiles, fsNames] at h
    exact ⟨b, rfl, Or.inl h⟩
  | errResolve c => simp [outcomeFiles, fsNames] at h

/-- Freshness of one step: every file the outcome wrote has a name that did
not exist in the directory the step started from. -/
theorem processOne_fresh (fs : FS) (c : Candidate) (io : IOSpec) :
    ∀ n ∈ fsNames (outcomeFiles (processOne fs c io).2), n ∉ fsNames fs := by
  intro n hn
  obtain ⟨b, hb, hor⟩ := outcomeFiles_names hn
  rw [processOne_base] at hb
  have hfresh := resolveBase_fresh hb
  rcases hor with h | h
  · rw [h]; exact hfresh.2
  · rw [h, processOne_cand]; exact hfresh.1

theorem runEngine_fst (fs : FS) (l : List (Candidate × IOSpec)) :
    (runEngine fs l).1 = fs ++ ((runEngine fs l).2.flatMap outcomeFiles) := by
  induction l generalizing fs with
  | nil => simp [runEngine]
  | cons ci rest ih =>
    simp only [runEngine, List.flatMap_cons]
    rw [ih]
    rw [processOne_fst fs ci.1 ci.2]
    simp [List.append_assoc]

theorem runEngine_length (fs : FS) (l : List (Candidate × IOSpec)) :
    (runEngine fs l).2.length = l.length := by
  induction l generalizing fs with
  | nil => simp [runEngine]
  | cons ci rest ih => simp [runEngine, ih]

/-- Every base resolved during the run pointed at names free in the
directory state the run started from. -/
theorem runEngine_bases_fresh (fs : FS) (l : List (Candidate × IOSpec)) :
    ∀ o ∈ (runEngine fs l).2, ∀ b, outcomeBase o = some b →
      imgName b (outcomeCand o).ext ∉ fsNames fs ∧
      txtName b ∉ fsNames fs := by
  induction l generalizing fs with
  | nil => simp [runEngine]
  | cons ci rest ih =>
    intro o ho b hb
    simp only [runEngine, List.mem_cons] at ho
    rcases ho with rfl | ho
    · rw [processOne_base] at hb
      have hfresh := resolveBase_fresh hb
      rw [processOne_cand]
      exact ⟨hfresh.1, hfresh.2⟩
    · have := ih ((processOne fs ci.1 ci.2).1) o ho b hb
      rw [processOne_fst, fsNames_append] at this
      constructor
      · intro hmem
        exact this.1 (List.mem_append_left _ hmem)
      · intro hmem
        exact this.2 (List.mem_append_left _ hmem)

/-- Every file an outcome wrote is present in the final directory state. -/
theorem runEngine_files_mem (fs : FS) (l : List (Candidate × IOSpec)) :
    ∀ o ∈ (runEngine fs l).2, ∀ p ∈ outcomeFiles o, p ∈ (runEngine fs l).1 := by
  induction l generalizing fs with
  | nil => simp [runEngine]
  | cons ci rest ih =>
    intro o ho p hp
    simp only [runEngine, List.mem_cons] at ho
    have hfst : (runEngine fs (ci :: rest)).1 = (runEngine (processOne fs ci.1 ci.2).1 rest).1 := by
      simp [runEngine]
    rcases ho with rfl | ho
    · rw [hfst, runEngine_fst]
      apply List.mem_append_left
      rw [processOne_fst]
      exact List.mem_append_right _ hp
    · rw [hfst]
      exact ih _ o ho p hp

theorem mem_okBases {os : List Outcome} {b : String} :
    b ∈ okBases os ↔ ∃ o ∈ os, ∃ c, o = .ok c b := by
  unfold okBases
  rw [List.mem_filterMap]
  constructor
  · rintro ⟨o, ho, hm⟩
    cases o with
    | ok c b0 =>
      simp at hm
      exact ⟨.ok c b0, ho, c, by rw [hm]⟩
    | errTxt c b0 m => simp at hm
    | errCopy c b0 m => simp at hm
    | errResolve c => simp at hm
  · rintro ⟨o, ho, c, rfl⟩
    exact ⟨.ok c b, ho, rfl⟩

/-- Once an outcome has claimed a base (its text file reached the output
directory), no later outcome in the same run resolves to that base. -/
theorem runEngine_no_reuse (fs : FS) (l : List (Candidate × IOSpec)) :
    ∀ (l₁ : List Outcome) (o : Outcome) (l₂ : List Outcome),
      (runEngine fs l).2 = l₁ ++ o :: l₂ →
      ∀ b, txtClaimed o = some b →
      ∀ o' ∈ l₂, outcomeBase o' ≠ some b := by
  induction l generalizing fs with
  | nil =>
    intro l₁ o l₂ h
    simp [runEngine] at h
  | cons ci rest ih =>
    intro l₁ o l₂ h b hb o' ho' hb'
    have hsplit : (runEngine fs (ci :: rest)).2 =
        (processOne fs ci.1 ci.2).2 :: (runEngine (processOne fs ci.1 ci.2).1 rest).2 := by
      simp [runEngine]
    rw [hsplit] at h
    cases l₁ with
    | nil =>
      simp at h
      obtain ⟨ho, hl2⟩ := h
      have htxt : txtName b ∈ fsNames ((processOne fs ci.1 ci.2).1) := by
        rw [processOne_fst, fsNames_append]
        apply List.mem_append_right
        rw [← ho] at hb
        have := txtClaimed_mem_files hb
        exact List.mem_map_of_mem Prod.fst this
      have hfresh := runEngine_bases_fresh ((processOne fs ci.1 ci.2).1) rest o'
        (by rw [← hl2] at ho'; exact ho') b hb'
      exact hfresh.2 htxt
    | cons o1 l₁' =>
      simp at h
      exact ih ((processOne fs ci.1 ci.2).1) l₁' o l₂ h.2 b hb o' ho' hb'

/-- The resolved bases of the successful candidates are pairwise distinct. -/
theorem runEngine_okBases_pairwise (fs : FS) (l : List (Candidate × IOSpec)) :
    (okBases (runEngine fs l).2).Pairwise (· ≠ ·) := by
  induction l generalizing fs with
  | nil => simp [runEngine, okBases]
  | cons ci rest ih =>
    have hsplit : (runEngine fs (ci :: rest)).2 =
        (processOne fs ci.1 ci.2).2 :: (runEngine (processOne fs ci.1 ci.2).1 rest).2 := by
      simp [runEngine]
    rw [hsplit]
    rcases hc : (processOne fs ci.1 ci.2).2 with ⟨c, b⟩ | ⟨c, b, m⟩ | ⟨c, b, m⟩ | ⟨c⟩
    · unfold okBases
      rw [List.filterMap_cons]
      simp only []
      apply List.Pairwise.cons
      · intro b' hb'
        obtain ⟨o', ho', c', rfl⟩ := mem_okBases.mp hb'
        have hb'base : outcomeBase (Outcome.ok c' b') = some b' := rfl
        have hfresh := runEngine_bases_fresh ((processOne fs ci.1 ci.2).1) rest _
          ho' b' hb'base
        have htxt : txtName b ∈ fsNames ((processOne fs ci.1 ci.2).1) := by
          rw [processOne_fst, fsNames_append, hc]
          apply List.mem_append_right
          simp [outcomeFiles, fsNames]
        intro hbb
        rw [hbb] at htxt
        exact hfresh.2 htxt
      · exact ih ((processOne fs ci.1 ci.2).1)
    all_goals
      unfold okBases
      rw [List.filterMap_cons]
      simp only []
      exact ih ((processOne fs ci.1 ci.2).1)

/-! ### Discovery characterization -/

/-- `DirAt t k d`: directory `d` sits at depth `k` below the root `t`.
Depth 0 is the root itself; depth 1 are its immediate subfolders. -/
inductive DirAt : DirTree → Nat → DirTree → Prop where
  | zero (t : DirTree) : DirAt t 0 t
  | succ {t s d : DirTree} {k : Nat} :
      s ∈ t.subs → DirAt s k d → DirAt t (k + 1) d

mutual

theorem osWalk_path_le (t : DirTree) (p : String) :
    ∀ e ∈ osWalk p t, p.length ≤ e.1.length := by
  intro e he
  match t with
  | .node n fl subs =>
    simp only [osWalk, List.mem_cons] at he
    rcases he with rfl | he
    · exact le_refl _
    · exact Nat.le_of_lt (osWalkList_path_lt subs p e he)

theorem osWalkList_path_lt (ts : List DirTree) (p : String) :
    ∀ e ∈ osWalkList p ts, p.length < e.1.length := by
  intro e he
  match ts with
  | [] => simp [osWalkList] at he
  | t :: ts' =>
    simp only [osWalkList, List.mem_append] at he
    rcases he with he | he
    · have h1 := osWalk_path_le t (p ++ "/" ++ t.name) e he
      have h2 : (p ++ "/" ++ t.name).length = p.length + 1 + t.name.length := by
        simp [String.length_append]
        rfl
      omega
    · exact osWalkList_path_lt ts' p e he

end

mutual

theorem osWalk_mem_sound (t : DirTree) (p pe dn : String)
    (dfs : List SrcFile) (h : (pe, dn, dfs) ∈ osWalk p t) :
    ∃ k d, DirAt t k d ∧ dn = d.name ∧ dfs = d.files := by
  match t with
  | .node n fl subs =>
    simp only [osWalk, List.mem_cons] at h
    rcases h with h | h
    · refine ⟨0, .node n fl subs, DirAt.zero _, ?_, ?_⟩
      · have := congrArg (fun x => x.2.1) h
        simpa [DirTree.name] using this
      · have := congrArg (fun x => x.2.2) h
        simpa [DirTree.files] using this
    · obtain ⟨s, hs, k, d, hat, h1, h2⟩ :=
        osWalkList_mem_sound subs p pe dn dfs h
      exact ⟨k + 1, d, DirAt.succ (by simpa [DirTree.subs] using hs) hat, h1, h2⟩

theorem osWalkList_mem_sound (ts : List DirTree) (p pe dn : String)
    (dfs : List SrcFile) (h : (pe, dn, dfs) ∈ osWalkList p ts) :
    ∃ s ∈ ts, ∃ k d, DirAt s k d ∧ dn = d.name ∧ dfs = d.files := by
  match ts with
  | [] => simp [osWalkList] at h
  | t :: ts' =>
    simp only [osWalkList, List.mem_append] at h
    rcases h with h | h
    · obtain ⟨k, d, hat, h1, h2⟩ :=
        osWalk_mem_sound t (p ++ "/" ++ t.name) pe dn dfs h
      exact ⟨t, List.mem_cons_self _ _, k, d, hat, h1, h2⟩
    · obtain ⟨s, hs, rest⟩ := osWalkList_mem_sound ts' p pe dn dfs h
      exact ⟨s, List.mem_cons_of_mem _ hs, rest⟩

end

theorem osWalkList_mem_of_osWalk {ts : List DirTree} {t : DirTree}
    (ht : t ∈ ts) (p : String) {e : WalkEntry}
    (he : e ∈ osWalk (p ++ "/" ++ t.name) t) : e ∈ osWalkList p ts := by
  induction ts with
  | nil => simp at ht
  | cons t0 ts' ih =>
    simp only [osWalkList, List.mem_append]
    rcases List.mem_cons.mp ht with rfl | ht'
    · exact Or.inl he
    · exact Or.inr (ih ht')

theorem osWalk_mem_complete {t d : DirTree} {k : Nat} (hat : DirAt t k d) :
    ∀ p : String, ∃ pe, (pe, d.name, d.files) ∈ osWalk p t := by
  induction hat with
  | zero t =>
    intro p
    refine ⟨p, ?_⟩
    match t with
    | .node n fl subs => simp [osWalk, DirTree.name, DirTree.files]
  | succ hs hat2 ih =>
    intro p
    rename_i t s d k
    obtain ⟨pe, hpe⟩ := ih (p ++ "/" ++ s.name)
    refine ⟨pe, ?_⟩
    match t with
    | .node n fl subs =>
      simp only [osWalk, List.mem_cons]
      right
      exact osWalkList_mem_of_osWalk (by simpa [DirTree.subs] using hs) p hpe

/-- Dropping the root entry: the filter in `get_image_files` removes exactly
the entry for the input root itself. -/
theorem osWalk_filter_root (rootPath : String) (t : DirTree) :
    (osWalk rootPath t).filter (fun e => e.1 ≠ rootPath) =
      osWalkList rootPath t.subs := by
  match t with
  | .node n fl subs =>
    simp only [osWalk, DirTree.subs, List.filter_cons]
    have hroot : ¬(rootPath ≠ rootPath) := by simp
    simp only [decide_eq_true_eq]
    rw [if_neg hroot]
    apply List.filter_eq_self.mpr
    intro e he
    have := osWalkList_path_lt subs rootPath e he
    simp only [decide_eq_true_eq]
    intro hcon
    rw [hcon] at this
    omega

/-- Soundness of discovery: every candidate comes from a directory at some
depth at least 1 below the input root, from a file with an allow-listed
extension, with stem, lower-cased extension, parent-folder label and bytes
taken from that file. -/
theorem get_image_files_sound {rootPath : String} {t : DirTree}
    {exts : List String} {c : Candidate}
    (h : c ∈ get_image_files rootPath t exts) :
    ∃ k d, DirAt t (k + 1) d ∧ ∃ f ∈ d.files,
      c.srcName = f.name ∧ c.folder = d.name ∧ c.content = f.content ∧
      c.base = (splitext f.name).1 ∧ c.ext = strLower (splitext f.name).2 ∧
      strLower (splitext f.name).2 ∈ exts := by
  unfold get_image_files at h
  rw [osWalk_filter_root] at h
  obtain ⟨e, he, hc⟩ := List.mem_flatMap.mp h
  obtain ⟨f, hf, hsome⟩ := List.mem_filterMap.mp hc
  by_cases hext : strLower (splitext f.name).2 ∈ exts
  · simp only [hext, if_pos] at hsome
    obtain ⟨s, hs, k, d, hat, hn, hfs⟩ :=
      osWalkList_mem_sound t.subs rootPath e.1 e.2.1 e.2.2 (by
        have : e = (e.1, e.2.1, e.2.2) := rfl
        rw [← this]; exact he)
    refine ⟨k, d, DirAt.succ hs hat, f, by rw [← hfs]; exact hf, ?_⟩
    have hceq := Option.some.inj hsome
    subst hceq
    exact ⟨rfl, hn, rfl, rfl, rfl, hext⟩
  · simp [hext] at hsome

/-- Completeness of discovery: every allow-listed file in a directory
strictly below the input root yields a candidate. -/
theorem get_image_files_complete {rootPath : String} {t d : DirTree}
    {k : Nat} {f : SrcFile} (hat : DirAt t (k + 1) d) (hf : f ∈ d.files)
    {exts : List String} (hext : strLower (splitext f.name).2 ∈ exts) :
    ∃ c ∈ get_image_files rootPath t exts,
      c.srcName = f.name ∧ c.folder = d.name ∧ c.content = f.content ∧
      c.base = (splitext f.name).1 ∧ c.ext = strLower (splitext f.name).2 := by
  cases hat with
  | succ hs hat2 =>
    rename_i s
    obtain ⟨pe, hpe⟩ := osWalk_mem_complete hat2 (rootPath ++ "/" ++ s.name)
    have hwl : (pe, d.name, d.files) ∈ osWalkList rootPath t.subs :=
      osWalkList_mem_of_osWalk hs rootPath hpe
    refine ⟨⟨pe ++ "/" ++ f.name, f.name, d.name, (splitext f.name).1,
      strLower (splitext f.name).2, f.content⟩, ?_, rfl, rfl, rfl, rfl, rfl⟩
    unfold get_image_files
    rw [osWalk_filter_root]
    apply List.mem_flatMap.mpr
    refine ⟨(pe, d.name, d.files), hwl, ?_⟩
    apply List.mem_filterMap.mpr
    refine ⟨f, hf, ?_⟩
    simp only [hext, if_pos]

/-! ### Generator-level lemmas -/

theorem processOne_ne_errResolve (fs : FS) (c : Candidate) (io : IOSpec) :
    ∀ c', (processOne fs c io).2 ≠ .errResolve c' := by
  intro c'
  obtain ⟨b, hb⟩ := resolveBase_isSome fs c.base c.ext
  unfold processOne
  rw [hb]
  rcases io.txtErr with _ | e
  · rcases io.copyErr with _ | e2 <;> simp
  · simp

theorem runEngine_ne_errResolve (fs : FS) (l : List (Candidate × IOSpec)) :
    ∀ o ∈ (runEngine fs l).2, ∀ c', o ≠ .errResolve c' := by
  induction l generalizing fs with
  | nil => simp [runEngine]
  | cons ci rest ih =>
    intro o ho c'
    simp only [runEngine, List.mem_cons] at ho
    rcases ho with rfl | ho
    · exact processOne_ne_errResolve fs ci.1 ci.2 c'
    · exact ih _ o ho c'

theorem processOne_errMsg (fs : FS) (c : Candidate) (io : IOSpec) {m : String}
    (h : outcomeErrMsg (processOne fs c io).2 = some m) :
    ∃ e, m = errLine c.path e := by
  obtain ⟨b, hb⟩ := resolveBase_isSome fs c.base c.ext
  unfold processOne at h
  rw [hb] at h
  rcases hio : io.txtErr with _ | e
  · rcases hio2 : io.copyErr with _ | e2
    · rw [hio, hio2] at h
      simp [outcomeErrMsg] at h
    · rw [hio, hio2] at h
      simp [outcomeErrMsg] at h
      exact ⟨e2, h.symm⟩
  · rw [hio] at h
    simp [outcomeErrMsg] at h
    exact ⟨e, h.symm⟩

theorem runEngine_errMsg (fs : FS) (l : List (Candidate × IOSpec)) :
    ∀ o ∈ (runEngine fs l).2, ∀ m, outcomeErrMsg o = some m →
      ∃ e, m = errLine (outcomeCand o).path e := by
  induction l generalizing fs with
  | nil => simp [runEngine]
  | cons ci rest ih =>
    intro o ho m hm
    simp only [runEngine, List.mem_cons] at ho
    rcases ho with rfl | ho
    · rw [processOne_cand]
      exact processOne_errMsg fs ci.1 ci.2 hm
    · exact ih _ o ho m hm

theorem runEngine_cand_mem (fs : FS) (l : List (Candidate × IOSpec)) :
    ∀ o ∈ (runEngine fs l).2, outcomeCand o ∈ l.map Prod.fst := by
  induction l generalizing fs with
  | nil => simp [runEngine]
  | cons ci rest ih =>
    intro o ho
    simp only [runEngine, List.mem_cons] at ho
    rcases ho with rfl | ho
    · rw [processOne_cand]
      exact List.mem_cons_self _ _
    · exact List.mem_cons_of_mem _ (ih _ o ho)

theorem zip_ios_fst (cands : List Candidate) (ios : Nat → IOSpec) :
    (cands.zip ((List.range cands.length).map ios)).map Prod.fst = cands := by
  apply List.map_fst_zip
  simp

theorem generate_fs_eq (rootPath : String) (t : DirTree) (fs0 : FS)
    (ios : Nat → IOSpec) :
    (generate_gt_from_folders rootPath t fs0 ios).fs =
      fs0 ++ ((generate_gt_from_folders rootPath t fs0 ios).outcomes.flatMap
        outcomeFiles) := by
  unfold generate_gt_from_folders
  by_cases h : (get_image_files rootPath t image_extensions).isEmpty
  · simp [h]
  · simp only [h, if_false, Bool.false_eq_true]
    exact runEngine_fst _ _

theorem generate_outcomes_eq (rootPath : String) (t : DirTree) (fs0 : FS)
    (ios : Nat → IOSpec)
    (h : ¬(get_image_files rootPath t image_extensions).isEmpty) :
    (generate_gt_from_folders rootPath t fs0 ios).outcomes =
      (runEngine fs0 ((get_image_files rootPath t image_extensions).zip
        ((List.range (get_image_files rootPath t image_extensions).length).map
          ios))).2 := by
  unfold generate_gt_from_folders
  simp only [h, if_false, Bool.false_eq_true]

theorem generate_outcomes_empty (rootPath : String) (t : DirTree) (fs0 : FS)
    (ios : Nat → IOSpec)
    (h : (get_image_files rootPath t image_extensions).isEmpty) :
    (generate_gt_from_folders rootPath t fs0 ios).outcomes = [] := by
  unfold generate_gt_from_folders
  simp only [h, if_true]

theorem generate_bases_fresh (rootPath : String) (t : DirTree) (fs0 : FS)
    (ios : Nat → IOSpec) :
    ∀ o ∈ (generate_gt_from_folders rootPath t fs0 ios).outcomes,
      ∀ b, outcomeBase o = some b →
        imgName b (outcomeCand o).ext ∉ fsNames fs0 ∧
        txtName b ∉ fsNames fs0 := by
  by_cases h : (get_image_files rootPath t image_extensions).isEmpty
  · rw [generate_outcomes_empty rootPath t fs0 ios h]
    simp
  · rw [generate_outcomes_eq rootPath t fs0 ios h]
    exact runEngine_bases_fresh fs0 _

theorem generate_files_mem (rootPath : String) (t : DirTree) (fs0 : FS)
    (ios : Nat → IOSpec) :
    ∀ o ∈ (generate_gt_from_folders rootPath t fs0 ios).outcomes,
      ∀ p ∈ outcomeFiles o,
        p ∈ (generate_gt_from_folders rootPath t fs0 ios).fs := by
  by_cases h : (get_image_files rootPath t image_extensions).isEmpty
  · rw [generate_outcomes_empty rootPath t fs0 ios h]
    simp
  · rw [generate_outcomes_eq rootPath t fs0 ios h]
    have hfs : (generate_gt_from_folders rootPath t fs0 ios).fs =
        (runEngine fs0 ((get_image_files rootPath t image_extensions).zip
          ((List.range
            (get_image_files rootPath t image_extensions).length).map
              ios))).1 := by
      unfold generate_gt_from_folders
      simp only [h, if_false, Bool.false_eq_true]
    rw [hfs]
    exact runEngine_files_mem fs0 _

theorem generate_okBases_pairwise (rootPath : String) (t : DirTree) (fs0 : FS)
    (ios : Nat → IOSpec) :
    (okBases (generate_gt_from_folders rootPath t fs0 ios).outcomes).Pairwise
      (· ≠ ·) := by
  by_cases h : (get_image_files rootPath t image_extensions).isEmpty
  · rw [generate_outcomes_empty rootPath t fs0 ios h]
    simp [okBases]
  · rw [generate_outcomes_eq rootPath t fs0 ios h]
    exact runEngine_okBases_pairwise fs0 _

theorem generate_no_reuse (rootPath : String) (t : DirTree) (fs0 : FS)
    (ios : Nat → IOSpec) :
    ∀ (l₁ : List Outcome) (o : Outcome) (l₂ : List Outcome),
      (generate_gt_from_folders rootPath t fs0 ios).outcomes = l₁ ++ o :: l₂ →
      ∀ b, txtClaimed o = some b →
      ∀ o' ∈ l₂, outcomeBase o' ≠ some b := by
  by_cases h : (get_image_files rootPath t image_extensions).isEmpty
  · rw [generate_outcomes_empty rootPath t fs0 ios h]
    intro l₁ o l₂ hsplit
    exact absurd hsplit (by simp)
  · rw [generate_outcomes_eq rootPath t fs0 ios h]
    exact runEngine_no_reuse fs0 _

theorem generate_cand_mem (rootPath : String) (t : DirTree) (fs0 : FS)
    (ios : Nat → IOSpec) :
    ∀ o ∈ (generate_gt_from_folders rootPath t fs0 ios).outcomes,
      outcomeCand o ∈ get_image_files rootPath t image_extensions := by
  by_cases h : (get_image_files rootPath t image_extensions).isEmpty
  · rw [generate_outcomes_empty rootPath t fs0 ios h]
    simp
  · rw [generate_outcomes_eq rootPath t fs0 ios h]
    intro o ho
    have := runEngine_cand_mem fs0 _ o ho
    rwa [zip_ios_fst] at this

theorem generate_length (rootPath : String) (t : DirTree) (fs0 : FS)
    (ios : Nat → IOSpec) :
    (generate_gt_from_folders rootPath t fs0 ios).outcomes.length =
      (get_image_files rootPath t image_extensions).length := by
  by_cases h : (get_image_files rootPath t image_extensions).isEmpty
  · rw [generate_outcomes_empty rootPath t fs0 ios h]
    rw [List.isEmpty_iff] at h
    simp [h]
  · rw [generate_outcomes_eq rootPath t fs0 ios h]
    rw [runEngine_length]
    simp

theorem generate_total (rootPath : String) (t : DirTree) (fs0 : FS)
    (ios : Nat → IOSpec) :
    (generate_gt_from_folders rootPath t fs0 ios).total =
      ((generate_gt_from_folders rootPath t fs0 ios).outcomes.filter
        isOk).length := by
  unfold generate_gt_from_folders
  by_cases h : (get_image_files rootPath t image_extensions).isEmpty
  · simp [h]
  · simp only [h, if_false, Bool.false_eq_true]

theorem generate_stderr_mem (rootPath : String) (t : DirTree) (fs0 : FS)
    (ios : Nat → IOSpec) :
    ∀ o ∈ (generate_gt_from_folders rootPath t fs0 ios).outcomes,
      ∀ m, outcomeErrMsg o = some m →
        m ∈ (generate_gt_from_folders rootPath t fs0 ios).stderrLines := by
  by_cases h : (get_image_files rootPath t image_extensions).isEmpty
  · rw [generate_outcomes_empty rootPath t fs0 ios h]
    simp
  · intro o ho m hm
    rw [generate_outcomes_eq rootPath t fs0 ios h] at ho
    have hstderr : (generate_gt_from_folders rootPath t fs0 ios).stderrLines =
        ((runEngine fs0 ((get_image_files rootPath t image_extensions).zip
          ((List.range
            (get_image_files rootPath t image_extensions).length).map
              ios))).2.filterMap outcomeErrMsg) := by
      unfold generate_gt_from_folders
      simp only [h, if_false, Bool.false_eq_true]
    rw [hstderr]
    exact List.mem_filterMap.mpr ⟨o, ho, hm⟩

theorem generate_ne_errResolve (rootPath : String) (t : DirTree) (fs0 : FS)
    (ios : Nat → IOSpec) :
    ∀ o ∈ (generate_gt_from_folders rootPath t fs0 ios).outcomes,
      ∀ c', o ≠ .errResolve c' := by
  by_cases h : (get_image_files rootPath t image_extensions).isEmpty
  · rw [generate_outcomes_empty rootPath t fs0 ios h]
    simp
  · rw [generate_outcomes_eq rootPath t fs0 ios h]
    exact runEngine_ne_errResolve fs0 _

theorem generate_errMsg (rootPath : String) (t : DirTree) (fs0 : FS)
    (ios : Nat → IOSpec) :
    ∀ o ∈ (generate_gt_from_folders rootPath t fs0 ios).outcomes,
      ∀ m, outcomeErrMsg o = some m →
        ∃ e, m = errLine (outcomeCand o).path e := by
  by_cases h : (get_image_files rootPath t image_extensions).isEmpty
  · rw [generate_outcomes_empty rootPath t fs0 ios h]
    simp
  · rw [generate_outcomes_eq rootPath t fs0 ios h]
    exact runEngine_errMsg fs0 _

theorem generate_new_names_fresh (rootPath : String) (t : DirTree) (fs0 : FS)
    (ios : Nat → IOSpec) :
    ∀ n ∈ fsNames ((generate_gt_from_folders rootPath t
        fs0 ios).outcomes.flatMap outcomeFiles),
      n ∉ fsNames fs0 := by
  intro n hn
  obtain ⟨p, hp, hpn⟩ := List.mem_map.mp hn
  obtain ⟨o, ho, hpo⟩ := List.mem_flatMap.mp hp
  have hnn : n ∈ fsNames (outcomeFiles o) := by
    rw [← hpn]
    exact List.mem_map_of_mem Prod.fst hpo
  obtain ⟨b, hb, hor⟩ := outcomeFiles_names hnn
  have hfresh := generate_bases_fresh rootPath t fs0 ios o ho b hb
  rcases hor with rfl | rfl
  · exact hfresh.2
  · exact hfresh.1

/-- Every candidate's path is strictly longer than a path of a file sitting
directly in the input root would be: candidates come from walked
directories, whose paths strictly extend the root path. -/
theorem get_image_files_path_long {rootPath : String} {t : DirTree}
    {exts : List String} {c : Candidate}
    (h : c ∈ get_image_files rootPath t exts) :
    rootPath.length + 1 + c.srcName.length < c.path.length := by
  unfold get_image_files at h
  rw [osWalk_filter_root] at h
  obtain ⟨e, he, hc⟩ := List.mem_flatMap.mp h
  obtain ⟨f, hf, hsome⟩ := List.mem_filterMap.mp hc
  have hlt := osWalkList_path_lt t.subs rootPath e he
  by_cases hext : strLower (splitext f.name).2 ∈ exts
  · simp only [hext, if_pos] at hsome
    have hceq := Option.some.inj hsome
    subst hceq
    simp only [String.length_append]
    have hslash : ("/" : String).length = 1 := rfl
    omega
  · simp [hext] at hsome

/-! ### Concrete fixtures for witnesses and counterexamples -/

/-- The all-successful I/O oracle. -/
def okIO : Nat → IOSpec := fun _ => ⟨none, none⟩

/-- Input tree with folders `Apple` and `Banana`, each holding `a.png`. -/
def tAB : DirTree :=
  .node "in" []
    [.node "Apple" [⟨"a.png", [1]⟩] [], .node "Banana" [⟨"a.png", [2]⟩] []]

/-- Input tree with a single folder `L` holding `a.png`. -/
def tL : DirTree := .node "in" [] [.node "L" [⟨"a.png", [1]⟩] []]

/-- The depth-2 directory `B` holding `b.png`. -/
def dB : DirTree := .node "B" [⟨"b.png", [7]⟩] []

/-- The depth-1 directory `A`, containing only the subdirectory `B`. -/
def dA : DirTree := .node "A" [] [dB]

/-- Input tree whose only image sits two levels deep: `in/A/B/b.png`. -/
def tDeep : DirTree := .node "in" [] [dA]

/-- A pre-existing output directory holding only `a.jpg`. -/
def fsJpg : FS := [("a.jpg", FData.image [0])]

/-- The base names present in an output directory, read as the stems of the
files on disk (the spec's registry seeding). -/
def preBases (fs : FS) : List String :=
  (fsNames fs).map (fun n => (splitext n).1)

/-- I/O oracle that fails the image copy of the first candidate only. -/
def failCopy0 : Nat → IOSpec :=
  fun i => if i = 0 then ⟨none, some "disk full"⟩ else ⟨none, none⟩

/-! ### Claims -/

/-- C9: for every candidate stem and every finite output-directory state,
the collision-resolution probe terminates: the fuelled loop returns a
result, and there is a positive counter `N` whose numbered name is free. -/
theorem C9_resolution_terminates :
    ∀ (fs : FS) (base ext : String),
      (∃ b, resolveBase fs base ext = some b) ∧
      ∃ N, 1 ≤ N ∧ collides fs (mkNumbered base N) ext = false := by
  intro fs base ext
  refine ⟨resolveBase_isSome fs base ext, ?_⟩
  obtain ⟨i, _, hf⟩ := exists_noncolliding fs base ext 1
  exact ⟨1 + i, by omega, hf⟩

/-- C2: no pre-existing file of the output directory is modified, truncated
or overwritten by a run: the final directory state is the initial one with
the run's new files appended, and none of the appended names equals a
pre-existing name. -/
theorem C2_no_overwrite :
    ∀ (rootPath : String) (t : DirTree) (fs0 : FS) (ios : Nat → IOSpec),
      (generate_gt_from_folders rootPath t fs0 ios).fs =
        fs0 ++ ((generate_gt_from_folders rootPath t
          fs0 ios).outcomes.flatMap outcomeFiles) ∧
      ∀ n ∈ fsNames ((generate_gt_from_folders rootPath t
          fs0 ios).outcomes.flatMap outcomeFiles),
        n ∉ fsNames fs0 := by
  intro rootPath t fs0 ios
  exact ⟨generate_fs_eq rootPath t fs0 ios,
    generate_new_names_fresh rootPath t fs0 ios⟩

/-- Claim C2 witness: a run over the `Apple`/`Banana` tree against an output
directory holding `x.png` appends its four files, and the name `a.gt.txt`
it wrote was not present beforehand. -/
theorem C2_no_overwrite_witness :
    (generate_gt_from_folders "in" tAB [("x.png", FData.image [5])]
        okIO).fs =
      [("x.png", FData.image [5])] ++
        ((generate_gt_from_folders "in" tAB [("x.png", FData.image [5])]
          okIO).outcomes.flatMap outcomeFiles) ∧
    "a.gt.txt" ∉ fsNames [("x.png", FData.image [5])] :=
  ⟨(C2_no_overwrite "in" tAB [("x.png", FData.image [5])] okIO).1,
    (C2_no_overwrite "in" tAB [("x.png", FData.image [5])] okIO).2
      "a.gt.txt" (by decide)⟩

/-- C3: for every successfully processed candidate, the output directory
contains `{b}.gt.txt` holding exactly the candidate's parent folder name and
`{b}{ext}` holding exactly the candidate's bytes, and that folder name and
those bytes are the name of the directory the source file sits in (at some
depth at least 1) and its content. -/
theorem C3_pairing_correct :
    ∀ (rootPath : String) (t : DirTree) (fs0 : FS) (ios : Nat → IOSpec),
      ∀ o ∈ (generate_gt_from_folders rootPath t fs0 ios).outcomes,
        ∀ c b, o = Outcome.ok c b →
          (txtName b, FData.text c.folder) ∈
            (generate_gt_from_folders rootPath t fs0 ios).fs ∧
          (imgName b c.ext, FData.image c.content) ∈
            (generate_gt_from_folders rootPath t fs0 ios).fs ∧
          ∃ k d, DirAt t (k + 1) d ∧ c.folder = d.name ∧
            (⟨c.srcName, c.content⟩ : SrcFile) ∈ d.files := by
  intro rootPath t fs0 ios o ho c b heq
  subst heq
  refine ⟨?_, ?_, ?_⟩
  · exact generate_files_mem rootPath t fs0 ios _ ho _
      (by simp [outcomeFiles])
  · exact generate_files_mem rootPath t fs0 ios _ ho _
      (by simp [outcomeFiles])
  · have hc := generate_cand_mem rootPath t fs0 ios _ ho
    have hc' : c ∈ get_image_files rootPath t image_extensions := by
      simpa [outcomeCand] using hc
    obtain ⟨k, d, hat, f, hf, hn, hfo, hco, _⟩ := get_image_files_sound hc'
    refine ⟨k, d, hat, hfo, ?_⟩
    have : (⟨c.srcName, c.content⟩ : SrcFile) = f := by
      cases f
      simp_all
    rw [this]
    exact hf

/-- Claim C3 witness: in the `Apple`/`Banana` run, the first successful
outcome pairs `a.gt.txt` (content `Apple`) with `a.png` (bytes `[1]`), and
`Apple` is a depth-1 folder of the tree containing that file. -/
theorem C3_pairing_correct_witness :
    (txtName "a", FData.text "Apple") ∈
      (generate_gt_from_folders "in" tAB [] okIO).fs ∧
    (imgName "a" ".png", FData.image [1]) ∈
      (generate_gt_from_folders "in" tAB [] okIO).fs ∧
    ∃ k d, DirAt tAB (k + 1) d ∧ "Apple" = d.name ∧
      (⟨"a.png", [1]⟩ : SrcFile) ∈ d.files := by
  have h := C3_pairing_correct "in" tAB [] okIO
    (Outcome.ok ⟨"in/Apple/a.png", "a.png", "Apple", "a", ".png", [1]⟩ "a")
    (by decide)
    ⟨"in/Apple/a.png", "a.png", "Apple", "a", ".png", [1]⟩ "a" rfl
  exact h

/-- Claim C1 counterexample: with `a.jpg` already in the output directory,
the single candidate `L/a.png` still resolves to base `a`, which is a base
name (file stem) present in the output directory before the run: the probe
only checks `a.png` and `a.gt.txt`, not other extensions of the same stem. -/
theorem C1_uniqueness_counterexample :
    okBases (generate_gt_from_folders "in" tL fsJpg okIO).outcomes = ["a"] ∧
    "a" ∈ preBases fsJpg ∧ "a.jpg" ∈ fsNames fsJpg := by decide

/-- C1 (amended): the resolved bases of the successfully processed
candidates of a run are pairwise distinct, and each resolved base's two
destination filenames were absent from the output directory before the run;
however a resolved base may coincide with the stem of a pre-existing file
of a different extension that has no companion `.gt.txt`. -/
theorem C1_uniqueness_amended :
    ∀ (rootPath : String) (t : DirTree) (fs0 : FS) (ios : Nat → IOSpec),
      (okBases (generate_gt_from_folders rootPath t
        fs0 ios).outcomes).Pairwise (· ≠ ·) ∧
      ∀ o ∈ (generate_gt_from_folders rootPath t fs0 ios).outcomes,
        ∀ c b, o = Outcome.ok c b →
          txtName b ∉ fsNames fs0 ∧ imgName b c.ext ∉ fsNames fs0 := by
  intro rootPath t fs0 ios
  refine ⟨generate_okBases_pairwise rootPath t fs0 ios, ?_⟩
  intro o ho c b heq
  subst heq
  have h := generate_bases_fresh rootPath t fs0 ios _ ho b rfl
  exact ⟨h.2, h.1⟩

/-- Claim C1 witness: in the `L/a.png` run against the `a.jpg` directory the
ok-bases are pairwise distinct and the resolved filenames `a.gt.txt` and
`a.png` were absent beforehand. -/
theorem C1_uniqueness_witness :
    (okBases (generate_gt_from_folders "in" tL
      fsJpg okIO).outcomes).Pairwise (· ≠ ·) ∧
    txtName "a" ∉ fsNames fsJpg ∧ imgName "a" ".png" ∉ fsNames fsJpg :=
  ⟨(C1_uniqueness_amended "in" tL fsJpg okIO).1,
    (C1_uniqueness_amended "in" tL fsJpg okIO).2
      (Outcome.ok ⟨"in/L/a.png", "a.png", "L", "a", ".png", [1]⟩ "a")
      (by decide)
      ⟨"in/L/a.png", "a.png", "L", "a", ".png", [1]⟩ "a" rfl⟩

/-- Claim C4 counterexample: a file two levels below the input root
(`in/A/B/b.png`) is discovered — `os.walk` recurses, and only the root
directory's own entry is skipped — refuting that sub-subfolder files are
ignored. -/
theorem C4_depth_counterexample :
    get_image_files "in" tDeep image_extensions =
      [⟨"in/A/B/b.png", "b.png", "B", "b", ".png", [7]⟩] ∧
    DirAt tDeep 2 dB := by
  constructor
  · decide
  · exact @DirAt.succ tDeep dA dB 1 (by simp [tDeep, DirTree.subs])
      (@DirAt.succ dA dB dB 0 (by simp [dA, DirTree.subs]) (DirAt.zero dB))

/-- C4 (amended): the discoverer returns exactly the allow-listed files of
directories at every depth at least 1 below the input root — not only
first-level children — while files directly in the input root are never
discovered (every candidate's path differs from the path of a root file). -/
theorem C4_discovery_amended :
    ∀ (rootPath : String) (t : DirTree),
      (∀ c ∈ get_image_files rootPath t image_extensions,
        (∃ k d, DirAt t (k + 1) d ∧ c.folder = d.name ∧
          (⟨c.srcName, c.content⟩ : SrcFile) ∈ d.files ∧
          c.base = (splitext c.srcName).1 ∧
          c.ext = strLower (splitext c.srcName).2 ∧
          strLower (splitext c.srcName).2 ∈ image_extensions) ∧
        c.path ≠ rootPath ++ "/" ++ c.srcName) ∧
      (∀ (k : Nat) (d : DirTree) (f : SrcFile), DirAt t (k + 1) d →
        f ∈ d.files → strLower (splitext f.name).2 ∈ image_extensions →
        ∃ c ∈ get_image_files rootPath t image_extensions,
          c.srcName = f.name ∧ c.folder = d.name ∧ c.content = f.content) := by
  intro rootPath t
  constructor
  · intro c hc
    constructor
    · obtain ⟨k, d, hat, f, hf, hn, hfo, hco, hb, he, hex⟩ :=
        get_image_files_sound hc
      refine ⟨k, d, hat, hfo, ?_, ?_, ?_, ?_⟩
      · have : (⟨c.srcName, c.content⟩ : SrcFile) = f := by
          cases f
          simp_all
        rw [this]
        exact hf
      · rw [hn]; exact hb
      · rw [hn]; exact he
      · rw [hn]; exact hex
    · intro hpath
      have hlong := get_image_files_path_long hc
      have := congrArg String.length hpath
      simp only [String.length_append] at this
      have hslash : ("/" : String).length = 1 := rfl
      omega
  · intro k d f hat hf hext
    obtain ⟨c, hc, h1, h2, h3, _, _⟩ :=
      @get_image_files_complete rootPath t d k f hat hf image_extensions hext
    exact ⟨c, hc, h1, h2, h3⟩

/-- Claim C4 witness: instantiating the amended discovery characterization
on the deep tree's sole candidate. -/
theorem C4_discovery_witness :
    (∃ k d, DirAt tDeep (k + 1) d ∧ ("B" : String) = d.name ∧
      (⟨"b.png", [7]⟩ : SrcFile) ∈ d.files ∧
      ("b" : String) = (splitext "b.png").1 ∧
      (".png" : String) = strLower (splitext "b.png").2 ∧
      strLower (splitext "b.png").2 ∈ image_extensions) ∧
    ("in/A/B/b.png" : String) ≠ "in" ++ "/" ++ "b.png" :=
  (C4_discovery_amended "in" tDeep).1
    ⟨"in/A/B/b.png", "b.png", "B", "b", ".png", [7]⟩ (by decide)

/-- C5: when a candidate's stem collides (its image name or its `.gt.txt`
name already exists), the engine appends `_N` for the least positive `N`
whose two destination names are both free; concretely, the
`Apple`/`Banana` run ends with `a.png`/`a.gt.txt` (content `Apple`) and
`a_1.png`/`a_1.gt.txt` (content `Banana`), in discovery order. -/
theorem C5_collision_counting :
    (∀ (fs : FS) (base ext b : String),
      resolveBase fs base ext = some b → collides fs base ext = true →
      ∃ N, 1 ≤ N ∧ b = mkNumbered base N ∧
        collides fs (mkNumbered base N) ext = false ∧
        ∀ m, 1 ≤ m → m < N → collides fs (mkNumbered base m) ext = true) ∧
    (generate_gt_from_folders "in" tAB [] okIO).fs =
      [("a.gt.txt", FData.text "Apple"), ("a.png", FData.image [1]),
       ("a_1.gt.txt", FData.text "Banana"),
       ("a_1.png", FData.image [2])] := by
  constructor
  · intro fs base ext b hres hcoll
    rcases resolveBase_spec hres with ⟨hfree, _⟩ | ⟨_, hex⟩
    · rw [hcoll] at hfree
      exact absurd hfree (by simp)
    · exact hex
  · decide

/-- Claim C5 witness: against a directory already holding `a.png` and
`a.gt.txt`, the stem `a` resolves to `a_1` with the least-counter
property. -/
theorem C5_collision_counting_witness :
    ∃ N, 1 ≤ N ∧ ("a_1" : String) = mkNumbered "a" N ∧
      collides [("a.png", FData.image [1]), ("a.gt.txt", FData.text "Apple")]
        (mkNumbered "a" N) ".png" = false ∧
      ∀ m, 1 ≤ m → m < N →
        collides [("a.png", FData.image [1]),
          ("a.gt.txt", FData.text "Apple")] (mkNumbered "a" m) ".png" =
          true :=
  C5_collision_counting.1
    [("a.png", FData.image [1]), ("a.gt.txt", FData.text "Apple")]
    "a" ".png" "a_1" (by decide) (by decide)

/-- C6: the process exits 0 exactly when the input directory is valid and at
least one candidate was processed successfully; otherwise it exits 1; and an
invalid input directory is rejected before any output-directory side effect
(the output directory is not created and the directory state is untouched). -/
theorem C6_exit_codes :
    ∀ (inputIsDir : Bool) (rootPath : String) (t : DirTree) (fs0 : FS)
      (ios : Nat → IOSpec),
      ((main inputIsDir rootPath t fs0 ios).exitCode = 0 ↔
        inputIsDir = true ∧
        1 ≤ ((generate_gt_from_folders rootPath t fs0 ios).outcomes.filter
          isOk).length) ∧
      ((main inputIsDir rootPath t fs0 ios).exitCode = 0 ∨
        (main inputIsDir rootPath t fs0 ios).exitCode = 1) ∧
      (inputIsDir = false →
        main inputIsDir rootPath t fs0 ios = ⟨1, false, fs0⟩) := by
  intro inputIsDir rootPath t fs0 ios
  have ht := generate_total rootPath t fs0 ios
  cases inputIsDir with
  | false => simp [main]
  | true =>
    refine ⟨?_, ?_, by simp⟩
    · constructor
      · intro h
        by_cases h0 : (generate_gt_from_folders rootPath t fs0 ios).total = 0
        · simp [main, h0] at h
        · exact ⟨rfl, by omega⟩
      · rintro ⟨-, hlen⟩
        have h0 : (generate_gt_from_folders rootPath t fs0 ios).total ≠ 0 := by
          omega
        simp [main, h0]
    · by_cases h0 : (generate_gt_from_folders rootPath t fs0 ios).total = 0 <;>
        simp [main, h0]

/-- Claim C6 witness: with a valid input and the all-successful oracle on
the `Apple`/`Banana` tree the exit code is 0; with an invalid input
directory the run exits 1 leaving the output directory untouched and
uncreated. -/
theorem C6_exit_codes_witness :
    (main true "in" tAB [] okIO).exitCode = 0 ∧
    main false "in" tAB fsJpg okIO = ⟨1, false, fsJpg⟩ :=
  ⟨(C6_exit_codes true "in" tAB [] okIO).1.mpr ⟨rfl, by decide⟩,
    (C6_exit_codes false "in" tAB fsJpg okIO).2.2 rfl⟩

/-- C7: one candidate per outcome — a per-file I/O failure never aborts the
run; each failed candidate yields an error line carrying its path on the
error stream; and the success count excludes the failed candidates. -/
theorem C7_per_file_errors :
    ∀ (rootPath : String) (t : DirTree) (fs0 : FS) (ios : Nat → IOSpec),
      (generate_gt_from_folders rootPath t fs0 ios).outcomes.length =
        (get_image_files rootPath t image_extensions).length ∧
      (∀ o ∈ (generate_gt_from_folders rootPath t fs0 ios).outcomes,
        isOk o = false →
        ∃ m, outcomeErrMsg o = some m ∧
          m ∈ (generate_gt_from_folders rootPath t fs0 ios).stderrLines ∧
          ∃ e, m = errLine (outcomeCand o).path e) ∧
      (generate_gt_from_folders rootPath t fs0 ios).total =
        ((generate_gt_from_folders rootPath t fs0 ios).outcomes.filter
          isOk).length := by
  intro rootPath t fs0 ios
  refine ⟨generate_length rootPath t fs0 ios, ?_,
    generate_total rootPath t fs0 ios⟩
  intro o ho hnok
  rcases o with ⟨c, b⟩ | ⟨c, b, m⟩ | ⟨c, b, m⟩ | ⟨c⟩
  · simp [isOk] at hnok
  · exact ⟨m, rfl, generate_stderr_mem rootPath t fs0 ios _ ho m rfl,
      generate_errMsg rootPath t fs0 ios _ ho m rfl⟩
  · exact ⟨m, rfl, generate_stderr_mem rootPath t fs0 ios _ ho m rfl,
      generate_errMsg rootPath t fs0 ios _ ho m rfl⟩
  · exact absurd rfl (generate_ne_errResolve rootPath t fs0 ios _ ho c)

/-- Claim C7 witness: in the `Apple`/`Banana` run whose first image copy
fails, the failing outcome yields the error line with its path, present on
stderr, and the count drops to the remaining success. -/
theorem C7_per_file_errors_witness :
    (generate_gt_from_folders "in" tAB [] failCopy0).outcomes.length =
      (get_image_files "in" tAB image_extensions).length ∧
    ∃ m, outcomeErrMsg (Outcome.errCopy
        ⟨"in/Apple/a.png", "a.png", "Apple", "a", ".png", [1]⟩ "a"
        (errLine "in/Apple/a.png" "disk full")) = some m ∧
      m ∈ (generate_gt_from_folders "in" tAB [] failCopy0).stderrLines ∧
      ∃ e, m = errLine (outcomeCand (Outcome.errCopy
        ⟨"in/Apple/a.png", "a.png", "Apple", "a", ".png", [1]⟩ "a"
        (errLine "in/Apple/a.png" "disk full"))).path e :=
  ⟨(C7_per_file_errors "in" tAB [] failCopy0).1,
    (C7_per_file_errors "in" tAB [] failCopy0).2.1
      (Outcome.errCopy ⟨"in/Apple/a.png", "a.png", "Apple", "a", ".png", [1]⟩
        "a" (errLine "in/Apple/a.png" "disk full"))
      (by decide) rfl⟩

/-- C8: the bases used for later collision checks are exactly those whose
text write succeeded: a txt-claimed base's `.gt.txt` file (the orphan, when
the image copy then failed) is in the final directory state and no later
candidate resolves to that base; a candidate whose text write failed
contributes no files at all; and the final state is the initial one plus
exactly the outcomes' files. -/
theorem C8_registry_claims :
    ∀ (rootPath : String) (t : DirTree) (fs0 : FS) (ios : Nat → IOSpec)
      (l₁ : List Outcome) (o : Outcome) (l₂ : List Outcome),
      (generate_gt_from_folders rootPath t fs0 ios).outcomes =
        l₁ ++ o :: l₂ →
      (∀ b, txtClaimed o = some b →
        (txtName b, FData.text (outcomeCand o).folder) ∈
          (generate_gt_from_folders rootPath t fs0 ios).fs ∧
        ∀ o' ∈ l₂, outcomeBase o' ≠ some b) ∧
      (∀ c b m, o = Outcome.errTxt c b m → outcomeFiles o = []) ∧
      (generate_gt_from_folders rootPath t fs0 ios).fs =
        fs0 ++ (l₁ ++ o :: l₂).flatMap outcomeFiles := by
  intro rootPath t fs0 ios l₁ o l₂ hsplit
  have ho : o ∈ (generate_gt_from_folders rootPath t fs0 ios).outcomes := by
    rw [hsplit]
    exact List.mem_append_right _ (List.mem_cons_self _ _)
  refine ⟨?_, ?_, ?_⟩
  · intro b hb
    refine ⟨generate_files_mem rootPath t fs0 ios o ho _
      (txtClaimed_mem_files hb), ?_⟩
    exact generate_no_reuse rootPath t fs0 ios l₁ o l₂ hsplit b hb
  · intro c b m heq
    subst heq
    rfl
  · rw [← hsplit]
    exact generate_fs_eq rootPath t fs0 ios

/-- Claim C8 witness: in the run whose first copy fails, the orphaned
`a.gt.txt` (content `Apple`) is still on disk and the later candidate does
not resolve to base `a` (it resolves to `a_1`). -/
theorem C8_registry_claims_witness :
    (txtName "a", FData.text "Apple") ∈
      (generate_gt_from_folders "in" tAB [] failCopy0).fs ∧
    ∀ o' ∈ [Outcome.ok
        ⟨"in/Banana/a.png", "a.png", "Banana", "a", ".png", [2]⟩ "a_1"],
      outcomeBase o' ≠ some "a" :=
  (C8_registry_claims "in" tAB [] failCopy0 []
    (Outcome.errCopy ⟨"in/Apple/a.png", "a.png", "Apple", "a", ".png", [1]⟩
      "a" (errLine "in/Apple/a.png" "disk full"))
    [Outcome.ok ⟨"in/Banana/a.png", "a.png", "Banana", "a", ".png", [2]⟩
      "a_1"]
    (by decide)).1 "a" rfl

/-- C10: a file whose entire name is a single dotted suffix (for example
`.png`) is never discovered: the stem/extension split keeps the leading-dot
name as the stem and yields an empty extension, which is not in the
allow-list — so every candidate has a nonempty extension and is not named
`.png`. -/
theorem C10_dotfile_skipped :
    splitext ".png" = (".png", "") ∧
    ∀ (rootPath : String) (t : DirTree) (c : Candidate),
      c ∈ get_image_files rootPath t image_extensions →
      c.srcName ≠ ".png" ∧ (splitext c.srcName).2 ≠ "" := by
  constructor
  · decide
  · intro rootPath t c hc
    obtain ⟨k, d, hat, f, hf, hn, hfo, hco, hb, he, hex⟩ :=
      get_image_files_sound hc
    constructor
    · intro hname
      have hfx : f.name = ".png" := hn.symm.trans hname
      rw [hfx] at hex
      exact absurd hex (by decide)
    · intro hempty
      rw [hn] at hempty
      rw [hempty] at hex
      exact absurd hex (by decide)

/-- Claim C10 witness: the discovered candidate `a.png` of the `L` tree is
not named `.png` and has a nonempty extension. -/
theorem C10_dotfile_skipped_witness :
    splitext ".png" = (".png", "") ∧
    ("a.png" : String) ≠ ".png" ∧ (splitext "a.png").2 ≠ "" :=
  ⟨C10_dotfile_skipped.1,
    C10_dotfile_skipped.2 "in" tL
      ⟨"in/L/a.png", "a.png", "L", "a", ".png", [1]⟩ (by decide)⟩

end Tesstrain
